import Mathlib

/-!
Verification of the name-reconciliation and spatial-join core of the
TRI risk dashboard (src/app.py) against its specification.

Strings are modelled as lists of Unicode code points (`Str := List Nat`);
`ofString` injects Lean string literals.  Python's `str.upper`/`str.strip`
are modelled on the ASCII range the administrative names use, and
`str.replace` (all non-overlapping occurrences, left to right) is `replaceAll`.
pandas DataFrames are modelled as lists of records, with NaN as `Option.none`;
the in-place column writes of the source are explicit state passing.
-/

abbrev Str := List Nat

/-- Code points of a Lean string literal, used to write concrete names. -/
def ofString (s : String) : Str := s.data.map Char.toNat

/-- ASCII upper-casing of one code point, the fragment of Python str.upper
exercised by the Latin-script administrative names. -/
def toUpperN (c : Nat) : Nat := if 97 ≤ c ∧ c ≤ 122 then c - 32 else c

/-- Python whitespace stripped by str.strip. -/
def isSpc (c : Nat) : Bool := c = 32 || c = 9 || c = 10 || c = 11 || c = 12 || c = 13

/-- str.strip: drop whitespace from both ends. -/
def strip (l : Str) : Str := ((l.dropWhile isSpc).reverse.dropWhile isSpc).reverse

/-- Worker for `replaceAll`.  The counter is the number of just-matched
pattern characters still to be skipped (Python replaces non-overlapping
occurrences, scanning left to right). -/
def repGo (pat rep : Str) : Str → Nat → Str
  | [], _ => []
  | c :: rest, 0 =>
    if pat.isPrefixOf (c :: rest) then rep ++ repGo pat rep rest (pat.length - 1)
    else c :: repGo pat rep rest 0
  | _ :: rest, k + 1 => repGo pat rep rest k

/-- Python str.replace(pat, rep): every non-overlapping occurrence,
scanning left to right. -/
def replaceAll (pat rep s : Str) : Str := repGo pat rep s 0

/-- The ordered replacement table of smart_fix_name (src/app.py lines 34-37),
as (symbol, letter) code-point pairs, in the dict's insertion order. -/
def replacements : List (Str × Str) :=
  [ ([124], [73]),   -- pipe to I
    ([62], [65]),    -- greater-than to A
    ([60], [65]),    -- less-than to A
    ([64], [85]),    -- at-sign to U
    ([33], [73]),    -- exclamation to I
    ([48], [79]),    -- zero to O
    ([36], [83]),    -- dollar to S
    ([40], []),      -- opening parenthesis removed
    ([41], []),      -- closing parenthesis removed
    (ofString "DISTRICT", []),
    ([68, 84, 46], []),  -- the token DT followed by a period, removed
    ([68, 84], []) ]     -- the token DT, removed

/-- The replacement loop of smart_fix_name (src/app.py lines 38-39). -/
def applyReps (l : Str) : Str :=
  replacements.foldl (fun acc pr => replaceAll pr.1 pr.2 acc) l

/-- smart_fix_name restricted to string input (src/app.py lines 33-40):
upper-case, strip, run the replacement table, strip again. -/
def smartFixS (name : Str) : Str := strip (applyReps (strip (name.map toUpperN)))

/-- A dynamically typed Python value reaching smart_fix_name: a string
or a non-string (an integer, as sheet names and identifiers can be). -/
inductive PyVal where
  | s (v : Str)
  | i (n : Int)
deriving DecidableEq

/-- Decimal digits of a natural number (str for Nat), with fuel for
structural recursion; the fuel is always sufficient at `natStr`. -/
def natStrGo : Nat → Nat → Str
  | 0, n => [48 + n % 10]
  | f + 1, n => if n < 10 then [48 + n] else natStrGo f (n / 10) ++ [48 + n % 10]

def natStr (n : Nat) : Str := natStrGo n n

/-- Python str of an integer. -/
def intStr (n : Int) : Str := if n < 0 then 45 :: natStr n.natAbs else natStr n.toNat

/-- smart_fix_name (src/app.py lines 31-40).  A non-string input is
returned as str(name) at once (line 32): the replacement pipeline runs
only for string input. -/
def smart_fix_name : PyVal → Str
  | .s name => smartFixS name
  | .i n => intStr n

example : smartFixS (ofString "S|T>PUR") = ofString "SITAPUR" := by decide

example : smartFixS (ofString " Chandauli ") = ofString "CHANDAULI" := by decide

example : smartFixS (ofString "DDTT") = ofString "DT" := by decide

example : smartFixS (ofString "DT") = ofString "" := by decide

example : smart_fix_name (.i 0) = ofString "0" := by decide

example : smartFixS (ofString "0") = ofString "O" := by decide

/-- First-match lookup in a list of (key, value) pairs, the model of a
Python dict lookup (the dict literals here have pairwise distinct keys). -/
def lookupFix (t : List (Str × Str)) (k : Str) : Option Str :=
  (t.find? (fun kv => kv.1 == k)).map (fun kv => kv.2)

/-- The UNIVERSAL_FIXES dict literal (src/app.py lines 267-275), in
insertion order. -/
def UNIVERSAL_FIXES : List (Str × Str) :=
  [ (ofString "KHERI", ofString "LAKHIMPUR KHERI"),
    (ofString "LAKHIMPUR", ofString "LAKHIMPUR KHERI"),
    (ofString "BHADOHI", ofString "SANT RAVIDAS NAGAR"),
    (ofString "SANT RAVIDAS NAGAR", ofString "BHADOHI"),
    (ofString "KUSHI NAGAR", ofString "KUSHINAGAR"),
    (ofString "SIDDHARTH NAGAR", ofString "SIDDHARTHNAGAR"),
    (ofString "AMROHA", ofString "JYOTIBA PHULE NAGAR"),
    (ofString "HATHRAS", ofString "MAHAMAYA NAGAR"),
    (ofString "KASGANJ", ofString "KANSHIRAM NAGAR"),
    (ofString "SAMBHAL", ofString "BHIM NAGAR"),
    (ofString "SHAMLI", ofString "PRABUDDH NAGAR"),
    (ofString "HAPUR", ofString "PANCHSHEEL NAGAR"),
    (ofString "SHRAWASTI", ofString "SHRAVASTI") ]

/-- pandas Series.replace with a dict: a value equal to a key is replaced
by that key's value, once, with no chaining; anything else is unchanged.
This is the alias-resolution step of the source (lines 276 and 279). -/
def resolveFix (t : List (Str × Str)) (n : Str) : Str :=
  match lookupFix t n with
  | some v => v
  | none => n

/-- A mutual alias pair (a cycle of length 2): some key maps to a distinct
value that maps straight back to it. -/
def hasMutualCycle (t : List (Str × Str)) : Bool :=
  t.any (fun kv => decide (kv.1 ≠ kv.2) && decide (lookupFix t kv.2 = some kv.1))

/-- Loading the alias table.  In the source the table is a dict literal
built unconditionally inside main (lines 267-275): there is no validation
pass of any kind, so loading never fails, whatever the table holds. -/
def loadFixes (t : List (Str × Str)) : Except Str (List (Str × Str)) := Except.ok t

/-- The alias-resolution contract stated by the specification, written
from the spec's words for comparison with `resolveFix`: a scoped entry
keyed by (scope, normalized) first, then a global entry, then identity. -/
def specAliasResolve (scopedT : List ((Str × Str) × Str)) (globalT : List (Str × Str))
    (scope : Str) (n : Str) : Str :=
  match (scopedT.find? (fun kv => kv.1 == (scope, n))).map (fun kv => kv.2) with
  | some v => v
  | none =>
    match lookupFix globalT n with
    | some v => v
    | none => n

/-- The explicit cutoff at the indicator-table fuzzy lookup
(src/app.py line 49). -/
def indicatorsCutoff : ℚ := 7/10

/-- The explicit cutoff at the district-map fuzzy lookup
(src/app.py line 286). -/
def districtMapCutoff : ℚ := 7/10

/-- The explicit cutoff at the village-map fuzzy fallback
(src/app.py line 370). -/
def villageFallbackCutoff : ℚ := 1/2

/-- The cutoff at the state-name fuzzy match (src/app.py line 256): the
call passes no cutoff argument, so difflib's default 0.6 applies. -/
def stateMatchCutoff : ℚ := 3/5

/-- The cutoff at the clicked-district fuzzy match (src/app.py line 316):
again difflib's implicit default 0.6. -/
def clickMatchCutoff : ℚ := 3/5

/-- The fuzzy-matching call sites of the reconciliation core with their
cutoffs, in source order (lines 256, 286, 49, 370, 316). -/
def reconCallSiteCutoffs : List ℚ :=
  [stateMatchCutoff, districtMapCutoff, indicatorsCutoff, villageFallbackCutoff,
   clickMatchCutoff]

/-- Length of the longest common run of the two lists read from their heads. -/
def runLen : Str → Str → Nat
  | a :: as, b :: bs => if a = b then runLen as bs + 1 else 0
  | _, _ => 0

/-- difflib SequenceMatcher find_longest_match (no junk: the autojunk
heuristic needs sequences of length 200 and more, which the names here
never reach): of all longest matching blocks, the one starting earliest
in the first sequence, then earliest in the second. -/
def longestMatch (a b : Str) : Nat × Nat × Nat :=
  (List.range a.length).foldl (fun best i =>
    (List.range b.length).foldl (fun best j =>
      let k := runLen (a.drop i) (b.drop j)
      if best.2.2 < k then (i, j, k) else best) best) (0, 0, 0)

/-- Total matched size of the Ratcliff/Obershelp recursion: take the
longest match, recurse left and right of it.  Fuel keeps the recursion
structural; `totalMatch` supplies enough. -/
def totalMatchGo : Nat → Str → Str → Nat
  | 0, _, _ => 0
  | f + 1, a, b =>
    match longestMatch a b with
    | (i, j, k) =>
      if k = 0 then 0
      else totalMatchGo f (a.take i) (b.take j) + k
           + totalMatchGo f (a.drop (i + k)) (b.drop (j + k))

def totalMatch (a b : Str) : Nat := totalMatchGo (a.length + b.length + 1) a b

/-- SequenceMatcher.ratio between a candidate and the target word:
twice the matched size over the total length (1 when both are empty). -/
def simRatio (a b : Str) : ℚ :=
  if a.length + b.length = 0 then 1
  else 2 * (totalMatch a b : ℚ) / ((a.length : ℚ) + (b.length : ℚ))

/-- Lexicographic order on code-point lists, Python string comparison. -/
def strLt : Str → Str → Bool
  | [], [] => false
  | [], _ :: _ => true
  | _ :: _, [] => false
  | a :: as, b :: bs => if a = b then strLt as bs else decide (a < b)

/-- Comparison of (score, candidate) pairs as heapq.nlargest compares the
tuples difflib builds: by score, ties by the candidate string. -/
def keyLt (x y : ℚ × Str) : Bool :=
  if x.1 = y.1 then strLt x.2 y.2 else decide (x.1 < y.1)

/-- Stable descending insertion for the model of heapq.nlargest. -/
def insertDesc (x : ℚ × Str) : List (ℚ × Str) → List (ℚ × Str)
  | [] => [x]
  | y :: ys => if keyLt x y then y :: insertDesc x ys else x :: y :: ys

def sortDesc : List (ℚ × Str) → List (ℚ × Str)
  | [] => []
  | x :: xs => insertDesc x (sortDesc xs)

/-- difflib.get_close_matches(word, possibilities, n, cutoff): the
candidates scoring at least the cutoff, best first (heapq.nlargest over
(score, candidate) pairs), truncated to n. -/
def getCloseMatches (word : Str) (poss : List Str) (n : Nat) (cutoff : ℚ) : List Str :=
  let scored := (poss.filter (fun x => decide (cutoff ≤ simRatio x word))).map
    (fun x => (simRatio x word, x))
  ((sortDesc scored).take n).map Prod.snd

/-- The shape of every fuzzy lookup in the source: best match above a
cutoff, or none (get_close_matches with n = 1). -/
def difflibTop (cutoff : ℚ) (word : Str) (poss : List Str) : Option Str :=
  (getCloseMatches word poss 1 cutoff).head?

abbrev Matcher := Str → List Str → Option Str

/-- One entry of the excel-to-map name mapping (src/app.py lines 283-288),
with the fuzzy matcher abstracted so that its non-invocation on the exact
path is expressible: exact membership first, the matcher only otherwise. -/
def reconcileOneWith (matcher : Matcher) (e : Str) (names : List Str) : Option Str :=
  if e ∈ names then some e else matcher e names

/-- The mapping entry exactly as the source builds it, with the
call-site matcher difflib.get_close_matches(..., n=1, cutoff=0.7). -/
def reconcileOne (e : Str) (names : List Str) : Option Str :=
  reconcileOneWith (difflibTop districtMapCutoff) e names

/-- First-seen-order deduplication, pandas Series.unique. -/
def uniqFirst (l : List Str) : List Str :=
  l.foldl (fun acc a => if a ∈ acc then acc else acc ++ [a]) []

example : resolveFix UNIVERSAL_FIXES (ofString "KHERI") = ofString "LAKHIMPUR KHERI" := by decide

example : hasMutualCycle UNIVERSAL_FIXES = true := by decide

example : reconcileOne (ofString "SITAPUR") [ofString "SITAPUR", ofString "LUCKNOW"]
    = some (ofString "SITAPUR") := by decide

/-- A row of the District_Indicators table: the District column, the
MATCH_KEY column (absent before get_indicators first writes it), and an
opaque stand-in for the remaining indicator columns. -/
structure IndRow where
  district : Str
  matchKey : Option Str
  payload : Nat
deriving DecidableEq

/-- The match key get_indicators computes (src/app.py lines 44-45):
smart_fix_name of the district string with all spaces removed. -/
def indKey (d : Str) : Str := replaceAll [32] [] (smartFixS d)

/-- The MATCH_KEY column write of src/app.py line 45, one row. -/
def setKey (r : IndRow) : IndRow := ⟨r.district, some (indKey r.district), r.payload⟩

/-- get_indicators (src/app.py lines 42-51) with the fuzzy matcher
abstracted.  The result pairs the returned row with the indicators table
as it stands after the call: line 45 assigns the MATCH_KEY column into
the very DataFrame that was passed in, so the post-state is explicit. -/
def get_indicatorsWith (matcher : Matcher) (d : Str) (df : Option (List IndRow)) :
    Option IndRow × Option (List IndRow) :=
  match df with
  | none => (none, none)
  | some rows =>
    let key := indKey d
    let rows2 := rows.map setKey
    match rows2.filter (fun r => r.matchKey = some key) with
    | r :: _ => (some r, some rows2)
    | [] =>
      let allKeys := uniqFirst (rows2.filterMap (fun r => r.matchKey))
      match matcher key allKeys with
      | some m => ((rows2.filter (fun r => r.matchKey = some m)).head?, some rows2)
      | none => (none, some rows2)

/-- get_indicators as the source runs it: n = 1, cutoff = 0.7 (line 49). -/
def get_indicators (d : Str) (df : Option (List IndRow)) :
    Option IndRow × Option (List IndRow) :=
  get_indicatorsWith (difflibTop indicatorsCutoff) d df

/-- One row of the weekly risk table built in main (lines 237-244):
the sheet name, the selected risk score, the precipitation value. -/
structure RiskRow where
  excelDistrict : Str
  riskScore : ℚ
  rainfall : ℚ
deriving DecidableEq

/-- A risk row after name cleaning and merge-key assignment
(lines 278-290): CLEAN_EXCEL_NAME and MERGE_KEY as added columns. -/
structure PreparedRisk where
  excelDistrict : Str
  riskScore : ℚ
  rainfall : ℚ
  cleanExcelName : Str
  mergeKey : Option Str
deriving DecidableEq

/-- smart_fix_name then the UNIVERSAL_FIXES replacement, the whole
name-cleaning applied to both the map and the excel side. -/
def cleanName (raw : Str) : Str := resolveFix UNIVERSAL_FIXES (smartFixS raw)

/-- Lookup in the excel-to-map mapping dict (pandas .map, line 290):
an absent key or a None value both leave the merge key empty. -/
def lookupMapping (m : List (Str × Option Str)) (k : Str) : Option Str :=
  match (m.find? (fun kv => kv.1 == k)).map (fun kv => kv.2) with
  | some v => v
  | none => none

/-- The mapping dict of lines 282-288: one entry per unique cleaned
excel name, exact membership first, fuzzy at cutoff 0.7 otherwise. -/
def buildMapping (excelCleanNames mapNames : List Str) : List (Str × Option Str) :=
  (uniqFirst excelCleanNames).map (fun e => (e, reconcileOne e mapNames))

/-- Lines 278-290: clean the excel names, build the mapping against the
unique map names, assign MERGE_KEY to every risk row. -/
def prepareRisk (mapNames : List Str) (rows : List RiskRow) : List PreparedRisk :=
  let mapping := buildMapping (rows.map (fun r => cleanName r.excelDistrict)) mapNames
  rows.map (fun r =>
    let e := cleanName r.excelDistrict
    ⟨r.excelDistrict, r.riskScore, r.rainfall, e, lookupMapping mapping e⟩)

/-- One output row of the merge (lines 291-293): the polygon's cleaned
name, the matched risk row when there is one (its columns are NaN
otherwise), and the two derived columns Display_Label and the
fillna(0) Risk Score. -/
structure MergedRow where
  cleanMapName : Str
  excel : Option PreparedRisk
  displayLabel : Str
  riskScore : ℚ
deriving DecidableEq

/-- The merge rows one polygon contributes: pandas merge(how=left) emits
one row per matching right-side row, in right-side order, and a single
all-NaN row when nothing matches; Display_Label and Risk Score are then
filled as in lines 292-293. -/
def mergeRowsFor (prep : List PreparedRisk) (p : Str) : List MergedRow :=
  match prep.filter (fun r => r.mergeKey = some p) with
  | [] => [⟨p, none, p, 0⟩]
  | h :: tl => (h :: tl).map (fun r => ⟨p, some r, r.excelDistrict, r.riskScore⟩)

/-- state_gdf.merge(risk_df, left_on CLEAN_MAP_NAME, right_on MERGE_KEY,
how=left) followed by the fillna steps, over all polygons in order. -/
def leftMergeRows (polys : List Str) (prep : List PreparedRisk) : List MergedRow :=
  (polys.map (mergeRowsFor prep)).flatten

/-- The whole district join pipeline of lines 266-293: clean both name
columns, reconcile the excel names against the unique map names, merge. -/
def runMerge (polyDistNames : List Str) (rows : List RiskRow) : List MergedRow :=
  let polyClean := polyDistNames.map cleanName
  leftMergeRows polyClean (prepareRisk (uniqFirst polyClean) rows)

/-- The two merged columns the choropleth renders per polygon: the hover
label and the colour-driving risk score (lines 295-304). -/
def renderColumns (m : MergedRow) : Str × ℚ := (m.displayLabel, m.riskScore)

example :
    (runMerge [ofString "Lakhimpur Kheri"]
      [⟨ofString "Kheri", 10, 0⟩, ⟨ofString "Lakhimpur", 20, 0⟩]).length = 2 := by decide

example :
    (runMerge [ofString "LUCKNOW"] []).map renderColumns
      = [(ofString "LUCKNOW", 0)] := by decide

/-- A geometry of the amenity layer or a village boundary: its vertex
(or point) coordinates.  This is the exact-coordinate model of the
shapely geometries the source manipulates. -/
structure Geom where
  pts : List (ℚ × ℚ)

/-- An axis-aligned bounding box. -/
structure Rect where
  minx : ℚ
  miny : ℚ
  maxx : ℚ
  maxy : ℚ

def listMin (l : List ℚ) : ℚ := l.foldl min (l.head?.getD 0)

def listMax (l : List ℚ) : ℚ := l.foldl max (l.head?.getD 0)

/-- shapely .bounds: the bounding box of the coordinates. -/
def bounds (g : Geom) : Rect :=
  ⟨listMin (g.pts.map Prod.fst), listMin (g.pts.map Prod.snd),
   listMax (g.pts.map Prod.fst), listMax (g.pts.map Prod.snd)⟩

/-- Closed-box intersection, the predicate an R-tree spatial index
answers for sindex.intersection(bounds). -/
def rectIntersects (a b : Rect) : Bool :=
  decide (a.minx ≤ b.maxx) && decide (b.minx ≤ a.maxx) &&
  decide (a.miny ≤ b.maxy) && decide (b.miny ≤ a.maxy)

/-- The edge cycle of a polygon: consecutive vertex pairs, closing back
to the first vertex. -/
def edgesOf (p : Geom) : List ((ℚ × ℚ) × (ℚ × ℚ)) :=
  match p.pts with
  | [] => []
  | c :: _ => p.pts.zip (p.pts.tail ++ [c])

/-- Whether the horizontal line through qy crosses the open-above edge
span: exactly one endpoint strictly above qy (the standard half-open
convention of ray casting). -/
def straddles (qy : ℚ) (e : (ℚ × ℚ) × (ℚ × ℚ)) : Bool :=
  decide (qy < e.1.2) != decide (qy < e.2.2)

/-- Whether the rightward ray from q crosses edge e: the edge straddles
q's height and the crossing point lies strictly right of q.  Written
with cross-multiplication (sign-correct in both straddle directions),
the exact form of the float division test. -/
def crossesRight (q : ℚ × ℚ) (e : (ℚ × ℚ) × (ℚ × ℚ)) : Bool :=
  if e.1.2 ≤ q.2 ∧ q.2 < e.2.2 then
    decide ((q.1 - e.1.1) * (e.2.2 - e.1.2) < (q.2 - e.1.2) * (e.2.1 - e.1.1))
  else if e.2.2 ≤ q.2 ∧ q.2 < e.1.2 then
    decide ((q.2 - e.1.2) * (e.2.1 - e.1.1) < (q.1 - e.1.1) * (e.2.2 - e.1.2))
  else false

/-- Ray-casting point-in-polygon: odd crossing parity. -/
def pointInPoly (q : ℚ × ℚ) (p : Geom) : Bool :=
  ((edgesOf p).filter (crossesRight q)).length % 2 = 1

/-- shapely geometry.within(poly) in this model: a nonempty geometry all
of whose coordinates lie inside the boundary (an empty geometry is
within nothing, as in shapely). -/
def within (g p : Geom) : Bool :=
  !g.pts.isEmpty && g.pts.all (fun q => pointInPoly q p)

/-- Lines 440-441: sindex.intersection(poly.bounds) then .iloc — the
candidate records (kept with their positional index) whose bounding box
meets the boundary's. -/
def possibleMatches (p : Geom) (cands : List Geom) : List (Nat × Geom) :=
  cands.enum.filter (fun ic => rectIntersects (bounds ic.2) (bounds p))

/-- Line 442: the exact within test over the pre-filtered candidates. -/
def amenitiesInside (p : Geom) (cands : List Geom) : List (Nat × Geom) :=
  (possibleMatches p cands).filter (fun ic => within ic.2 p)

/-- Python substring containment (pat in s): some suffix of s starts
with pat. -/
def lcontains (pat : Str) : Str → Bool
  | [] => pat.isEmpty
  | c :: rest => pat.isPrefixOf (c :: rest) || lcontains pat rest

lemma repGo_eq_self (pat rep : Str) (l : Str) (h : lcontains pat l = false) :
    repGo pat rep l 0 = l := by
  induction l with
  | nil => rfl
  | cons c rest ih =>
    simp only [lcontains, Bool.or_eq_false_iff] at h
    simp only [repGo, h.1, Bool.false_eq_true, if_false]
    exact congrArg (c :: ·) (ih h.2)

lemma replaceAll_eq_self (pat rep : Str) (l : Str) (h : lcontains pat l = false) :
    replaceAll pat rep l = l := repGo_eq_self pat rep l h

lemma mem_repGo (pat rep : Str) (a : Nat) :
    ∀ (l : Str) (k : Nat), a ∈ repGo pat rep l k → a ∈ l ∨ a ∈ rep := by
  intro l
  induction l with
  | nil => intro k h; simp [repGo] at h
  | cons c rest ih =>
    intro k h
    match k with
    | 0 =>
      simp only [repGo] at h
      split at h
      · rcases List.mem_append.1 h with hr | hr
        · exact Or.inr hr
        · rcases ih _ hr with hl | hr2
          · exact Or.inl (List.mem_cons_of_mem c hl)
          · exact Or.inr hr2
      · rcases List.mem_cons.1 h with hc | hr
        · exact Or.inl (hc ▸ List.mem_cons_self c rest)
        · rcases ih _ hr with hl | hr2
          · exact Or.inl (List.mem_cons_of_mem c hl)
          · exact Or.inr hr2
    | k + 1 =>
      simp only [repGo] at h
      rcases ih _ h with hl | hr
      · exact Or.inl (List.mem_cons_of_mem c hl)
      · exact Or.inr hr

lemma not_mem_repGo_single (a : Nat) (rep : Str) (hrep : a ∉ rep) :
    ∀ (l : Str) (k : Nat), a ∉ repGo [a] rep l k := by
  intro l
  induction l with
  | nil => intro k h; simp [repGo] at h
  | cons c rest ih =>
    intro k h
    match k with
    | 0 =>
      simp only [repGo] at h
      by_cases hc : a = c
      · subst hc
        simp only [List.isPrefixOf, beq_self_eq_true, Bool.true_and, if_pos] at h
        rcases List.mem_append.1 h with hr | hr
        · exact hrep hr
        · exact ih _ hr
      · have hpre : [a].isPrefixOf (c :: rest) = false := by
          simp [List.isPrefixOf]
          exact fun hac => absurd hac hc
        rw [hpre] at h
        simp only [Bool.false_eq_true, if_false, List.mem_cons] at h
        rcases h with h | h
        · exact hc h
        · exact ih _ h
    | k + 1 =>
      simp only [repGo] at h
      exact ih _ h

lemma not_mem_replaceAll_single (a : Nat) (rep : Str) (l : Str) (hrep : a ∉ rep) :
    a ∉ replaceAll [a] rep l := not_mem_repGo_single a rep hrep l 0

lemma lcontains_singleton (a : Nat) (l : Str) : lcontains [a] l = false ↔ a ∉ l := by
  induction l with
  | nil => simp [lcontains]
  | cons c rest ih =>
    simp only [lcontains, Bool.or_eq_false_iff, List.mem_cons]
    constructor
    · rintro ⟨h1, h2⟩ (hc | hr)
      · subst hc
        simp [List.isPrefixOf] at h1
      · exact ih.1 h2 hr
    · intro h
      refine ⟨?_, ih.2 fun hr => h (Or.inr hr)⟩
      simp [List.isPrefixOf]
      exact fun hac => h (Or.inl hac)

lemma mem_foldl_reps (a : Nat) :
    ∀ (ps : List (Str × Str)) (l : Str),
      a ∈ ps.foldl (fun acc pr => replaceAll pr.1 pr.2 acc) l →
      a ∈ l ∨ ∃ pr ∈ ps, a ∈ pr.2 := by
  intro ps
  induction ps with
  | nil => intro l h; exact Or.inl h
  | cons p ps ih =>
    intro l h
    simp only [List.foldl_cons] at h
    rcases ih _ h with hl | ⟨pr, hpr, ha⟩
    · rcases mem_repGo p.1 p.2 a l 0 hl with hl2 | hr
      · exact Or.inl hl2
      · exact Or.inr ⟨p, List.mem_cons_self p ps, hr⟩
    · exact Or.inr ⟨pr, List.mem_cons_of_mem p hpr, ha⟩

lemma not_mem_foldl_reps (a : Nat) (ps : List (Str × Str)) (l : Str)
    (hl : a ∉ l) (hps : ∀ pr ∈ ps, a ∉ pr.2) :
    a ∉ ps.foldl (fun acc pr => replaceAll pr.1 pr.2 acc) l := by
  intro h
  rcases mem_foldl_reps a ps l h with h2 | ⟨pr, hpr, ha⟩
  · exact hl h2
  · exact hps pr hpr ha

lemma not_mem_applyReps_split (k : Nat) (rep : Str) (ps1 ps2 : List (Str × Str))
    (l : Str) (hsplit : replacements = ps1 ++ ([k], rep) :: ps2) (hrep : k ∉ rep)
    (h2 : ∀ pr ∈ ps2, k ∉ pr.2) : k ∉ applyReps l := by
  rw [applyReps, hsplit, List.foldl_append]
  simp only [List.foldl_cons]
  exact not_mem_foldl_reps k ps2 _ (not_mem_replaceAll_single k rep _ hrep) h2

lemma isPrefixOf_trans_nat :
    ∀ (p1 p2 l : Str), p1.isPrefixOf p2 = true → p2.isPrefixOf l = true →
      p1.isPrefixOf l = true := by
  intro p1
  induction p1 with
  | nil => intro p2 l _ _; simp [List.isPrefixOf]
  | cons a as ih =>
    intro p2 l h12 h2l
    match p2, l with
    | b :: bs, c :: cs =>
      simp only [List.isPrefixOf, Bool.and_eq_true, beq_iff_eq] at h12 h2l ⊢
      exact ⟨h12.1.trans h2l.1, ih bs cs h12.2 h2l.2⟩

lemma lcontains_mono (p1 p2 : Str) (hp : p1.isPrefixOf p2 = true) :
    ∀ l : Str, lcontains p2 l = true → lcontains p1 l = true := by
  intro l
  induction l with
  | nil =>
    intro h
    simp only [lcontains, List.isEmpty_iff] at h ⊢
    subst h
    match p1, hp with
    | [], _ => rfl
  | cons c rest ih =>
    intro h
    simp only [lcontains, Bool.or_eq_true] at h ⊢
    rcases h with h | h
    · exact Or.inl (isPrefixOf_trans_nat p1 p2 (c :: rest) hp h)
    · exact Or.inr (ih h)

lemma lcontains_false_mono (p1 p2 : Str) (hp : p1.isPrefixOf p2 = true) (l : Str)
    (h : lcontains p1 l = false) : lcontains p2 l = false := by
  by_contra hne
  have : lcontains p2 l = true := by
    cases hcase : lcontains p2 l
    · exact absurd hcase hne
    · rfl
  rw [lcontains_mono p1 p2 hp l this] at h
  simp at h

/-- The first code point when there is one fails isSpc: head cleanliness. -/
def headClean (l : Str) : Prop :=
  match l with
  | [] => True
  | c :: _ => isSpc c = false

lemma headClean_dropWhile (l : Str) : headClean (l.dropWhile isSpc) := by
  induction l with
  | nil => trivial
  | cons c rest ih =>
    by_cases h : isSpc c = true
    · rw [List.dropWhile_cons_of_pos h]
      exact ih
    · rw [List.dropWhile_cons_of_neg h]
      simpa [headClean] using h

lemma dropWhile_eq_self_of_headClean (l : Str) (h : headClean l) :
    l.dropWhile isSpc = l := by
  match l with
  | [] => rfl
  | c :: rest =>
    simp only [headClean] at h
    exact List.dropWhile_cons_of_neg (by simp [h])

lemma headClean_of_isPrefix (l1 l2 : Str) (h : l1 <+: l2) (h2 : headClean l2) :
    headClean l1 := by
  match l1 with
  | [] => trivial
  | c :: rest =>
    rcases h with ⟨t, ht⟩
    subst ht
    simpa [headClean] using h2

lemma strip_isPrefix_dropWhile (l : Str) : strip l <+: l.dropWhile isSpc := by
  rw [← List.reverse_suffix, strip, List.reverse_reverse]
  exact List.dropWhile_suffix isSpc

lemma dropWhile_strip (l : Str) : (strip l).dropWhile isSpc = strip l :=
  dropWhile_eq_self_of_headClean _ (headClean_of_isPrefix _ _
    (strip_isPrefix_dropWhile l) (headClean_dropWhile l))

lemma strip_strip (l : Str) : strip (strip l) = strip l := by
  conv_lhs => rw [strip, dropWhile_strip]
  have hrev : (strip l).reverse = (l.dropWhile isSpc).reverse.dropWhile isSpc := by
    rw [strip, List.reverse_reverse]
  rw [hrev, dropWhile_eq_self_of_headClean _ (headClean_dropWhile _), ← hrev,
    List.reverse_reverse]

lemma mem_strip (a : Nat) (l : Str) (h : a ∈ strip l) : a ∈ l := by
  rw [strip, List.mem_reverse] at h
  have h2 := (List.dropWhile_suffix isSpc).sublist.subset h
  rw [List.mem_reverse] at h2
  exact (List.dropWhile_suffix isSpc).sublist.subset h2

lemma map_eq_self_of_mem (f : Nat → Nat) (l : Str) (h : ∀ a ∈ l, f a = a) :
    l.map f = l := by
  induction l with
  | nil => rfl
  | cons c rest ih =>
    simp only [List.map_cons]
    rw [h c (List.mem_cons_self c rest), ih fun a ha => h a (List.mem_cons_of_mem c ha)]

lemma toUpperN_idem (c : Nat) : toUpperN (toUpperN c) = toUpperN c := by
  unfold toUpperN
  by_cases h : 97 ≤ c ∧ c ≤ 122
  · have h2 : ¬(97 ≤ c - 32 ∧ c - 32 ≤ 122) := by omega
    rw [if_pos h, if_neg h2]
  · rw [if_neg h, if_neg h]

lemma no_symbol_smartFix (k : Nat) (rep : Str) (ps1 ps2 : List (Str × Str))
    (hsplit : replacements = ps1 ++ ([k], rep) :: ps2) (hrep : k ∉ rep)
    (h2 : ∀ pr ∈ ps2, k ∉ pr.2) (s : Str) : k ∉ smartFixS s :=
  fun hk => not_mem_applyReps_split k rep ps1 ps2 _ hsplit hrep h2 (mem_strip k _ hk)

lemma rep_chars_upper : ∀ pr ∈ replacements, ∀ c ∈ pr.2, toUpperN c = c := by decide

/-- C2 (amended): smart_fix_name is idempotent on every string whose
normalized form contains neither the token DT nor the token DISTRICT as
a substring.  (It is not idempotent in general: removing DT can splice a
new DT, or a new DISTRICT, out of the surrounding characters, which a
second pass then removes; see the counterexample.) -/
theorem smart_fix_name_idempotent_of_stable (s : Str)
    (h1 : lcontains [68, 84] (smartFixS s) = false)
    (h2 : lcontains (ofString "DISTRICT") (smartFixS s) = false) :
    smartFixS (smartFixS s) = smartFixS s := by
  have hchar : ∀ a ∈ smartFixS s, toUpperN a = a := by
    intro a ha
    have ha2 : a ∈ applyReps (strip (s.map toUpperN)) := mem_strip a _ ha
    rcases mem_foldl_reps a replacements _ ha2 with hl | ⟨pr, hpr, hr⟩
    · have hl2 : a ∈ s.map toUpperN := mem_strip a _ hl
      rcases List.mem_map.1 hl2 with ⟨d, _, hd⟩
      rw [← hd]
      exact toUpperN_idem d
    · exact rep_chars_upper pr hpr a hr
  have hup : (smartFixS s).map toUpperN = smartFixS s :=
    map_eq_self_of_mem _ _ hchar
  have hstr : strip (smartFixS s) = smartFixS s := strip_strip _
  have n124 : (124 : Nat) ∉ smartFixS s :=
    no_symbol_smartFix 124 [73] (replacements.take 0) (replacements.drop 1) rfl
      (by decide) (by decide) s
  have n62 : (62 : Nat) ∉ smartFixS s :=
    no_symbol_smartFix 62 [65] (replacements.take 1) (replacements.drop 2) rfl
      (by decide) (by decide) s
  have n60 : (60 : Nat) ∉ smartFixS s :=
    no_symbol_smartFix 60 [65] (replacements.take 2) (replacements.drop 3) rfl
      (by decide) (by decide) s
  have n64 : (64 : Nat) ∉ smartFixS s :=
    no_symbol_smartFix 64 [85] (replacements.take 3) (replacements.drop 4) rfl
      (by decide) (by decide) s
  have n33 : (33 : Nat) ∉ smartFixS s :=
    no_symbol_smartFix 33 [73] (replacements.take 4) (replacements.drop 5) rfl
      (by decide) (by decide) s
  have n48 : (48 : Nat) ∉ smartFixS s :=
    no_symbol_smartFix 48 [79] (replacements.take 5) (replacements.drop 6) rfl
      (by decide) (by decide) s
  have n36 : (36 : Nat) ∉ smartFixS s :=
    no_symbol_smartFix 36 [83] (replacements.take 6) (replacements.drop 7) rfl
      (by decide) (by decide) s
  have n40 : (40 : Nat) ∉ smartFixS s :=
    no_symbol_smartFix 40 [] (replacements.take 7) (replacements.drop 8) rfl
      (by decide) (by decide) s
  have n41 : (41 : Nat) ∉ smartFixS s :=
    no_symbol_smartFix 41 [] (replacements.take 8) (replacements.drop 9) rfl
      (by decide) (by decide) s
  have hDTdot : lcontains [68, 84, 46] (smartFixS s) = false :=
    lcontains_false_mono [68, 84] [68, 84, 46] (by decide) _ h1
  have happ : applyReps (smartFixS s) = smartFixS s := by
    simp only [applyReps, replacements, List.foldl_cons, List.foldl_nil]
    rw [replaceAll_eq_self [124] [73] _ ((lcontains_singleton 124 _).2 n124),
      replaceAll_eq_self [62] [65] _ ((lcontains_singleton 62 _).2 n62),
      replaceAll_eq_self [60] [65] _ ((lcontains_singleton 60 _).2 n60),
      replaceAll_eq_self [64] [85] _ ((lcontains_singleton 64 _).2 n64),
      replaceAll_eq_self [33] [73] _ ((lcontains_singleton 33 _).2 n33),
      replaceAll_eq_self [48] [79] _ ((lcontains_singleton 48 _).2 n48),
      replaceAll_eq_self [36] [83] _ ((lcontains_singleton 36 _).2 n36),
      replaceAll_eq_self [40] [] _ ((lcontains_singleton 40 _).2 n40),
      replaceAll_eq_self [41] [] _ ((lcontains_singleton 41 _).2 n41),
      replaceAll_eq_self (ofString "DISTRICT") [] _ h2,
      replaceAll_eq_self [68, 84, 46] [] _ hDTdot,
      replaceAll_eq_self [68, 84] [] _ h1]
  calc smartFixS (smartFixS s)
      = strip (applyReps (strip ((smartFixS s).map toUpperN))) := rfl
    _ = strip (applyReps (smartFixS s)) := by rw [hup, hstr]
    _ = strip (smartFixS s) := by rw [happ]
    _ = smartFixS s := hstr

/-- ASCII lower-casing, the fragment of str.lower the village matching
uses (src/app.py line 363). -/
def lowerN (c : Nat) : Nat := if 65 ≤ c ∧ c ≤ 90 then c + 32 else c

/-- The village-side district key: lower-cased, stripped (line 363-364). -/
def villageKey (d : Str) : Str := strip (d.map lowerN)

/-- Lines 363-372: pick the village rows of the selected district by
exact lowered match; when none match, fall back to fuzzy matching over
the unique district values at the explicit cutoff 0.5. -/
def selectVillageDistrict (targetDist : Str) (dists : List Str) : Option Str :=
  let t := villageKey targetDist
  let keys := dists.map villageKey
  if t ∈ keys then some t else difflibTop villageFallbackCutoff t (uniqFirst keys)

/-- Line 256: match the selected state against the shapefile's state
names, upper-cased, with difflib's implicit default cutoff. -/
def matchState (sel : Str) (mapStates : List Str) : Option Str :=
  difflibTop stateMatchCutoff (sel.map toUpperN) (mapStates.map (fun s => s.map toUpperN))

/-- Line 316: match a clicked display label against the district list,
upper-cased, with difflib's implicit default cutoff. -/
def matchClickedDistrict (clicked : Str) (districts : List Str) : Option Str :=
  difflibTop clickMatchCutoff (clicked.map toUpperN)
    (districts.map (fun s => s.map toUpperN))

/-- C2 counterexample: the normalizer is not idempotent.  One pass over
"DDTT" removes the inner DT and splices the outer D and T into a fresh
DT, which a second pass removes. -/
theorem smart_fix_name_not_idempotent :
    smart_fix_name (PyVal.s (smart_fix_name (PyVal.s (ofString "DDTT")))) ≠
      smart_fix_name (PyVal.s (ofString "DDTT")) := by decide

/-- C2 witness: the conditional idempotence theorem at the concrete
corrupted name that motivates the normalizer. -/
theorem smart_fix_name_idempotent_witness :
    lcontains [68, 84] (smartFixS (ofString "S|T>PUR")) = false ∧
    lcontains (ofString "DISTRICT") (smartFixS (ofString "S|T>PUR")) = false ∧
    smartFixS (smartFixS (ofString "S|T>PUR")) = smartFixS (ofString "S|T>PUR") :=
  ⟨by decide, by decide,
    smart_fix_name_idempotent_of_stable (ofString "S|T>PUR") (by decide) (by decide)⟩

/-- C1 counterexample: UNIVERSAL_FIXES contains the mutual pair Bhadohi
and Sant Ravidas Nagar (a cycle of length 2), and loading it raises no
error: there is no load-time cycle validation at all. -/
theorem alias_cycle_not_rejected :
    hasMutualCycle UNIVERSAL_FIXES = true ∧
    loadFixes UNIVERSAL_FIXES = Except.ok UNIVERSAL_FIXES :=
  ⟨by decide, rfl⟩

/-- C1 (amended): loading an alias table never fails, whatever it holds;
the Bhadohi and Sant Ravidas Nagar mutual pair is tolerated because the
table is applied in a single non-iterated pass, whose double application
returns to the starting name instead of oscillating. -/
theorem alias_load_total_and_swap :
    (∀ t : List (Str × Str), loadFixes t = Except.ok t) ∧
    resolveFix UNIVERSAL_FIXES (ofString "BHADOHI") = ofString "SANT RAVIDAS NAGAR" ∧
    resolveFix UNIVERSAL_FIXES (ofString "SANT RAVIDAS NAGAR") = ofString "BHADOHI" ∧
    resolveFix UNIVERSAL_FIXES
        (resolveFix UNIVERSAL_FIXES (ofString "BHADOHI")) = ofString "BHADOHI" :=
  ⟨fun _ => rfl, by decide, by decide, by decide⟩

/-- C7: alias resolution is an exact global lookup falling back to
identity, and (the source defining no scoped alias entries at all) it
coincides, uniformly in the scope, with the specification's chain of
scoped lookup, then global lookup, then identity, instantiated with the
empty scoped table. -/
theorem alias_resolve_global_then_identity (t : List (Str × Str)) (scope n : Str) :
    resolveFix t n = specAliasResolve [] t scope n ∧
    (lookupFix t n = none → resolveFix t n = n) ∧
    ∀ v, lookupFix t n = some v → resolveFix t n = v := by
  refine ⟨rfl, ?_, ?_⟩
  · intro h
    simp [resolveFix, h]
  · intro v h
    simp [resolveFix, h]

/-- C8 counterexample: the village-fallback call site uses cutoff 0.5,
outside the claimed 0.6 to 0.7 range. -/
theorem village_cutoff_below_range :
    ¬(3/5 ≤ villageFallbackCutoff ∧ villageFallbackCutoff ≤ 7/10) := by
  norm_num [villageFallbackCutoff]

/-- C8 (amended): the fuzzy call sites use cutoffs between 0.5 and 0.7:
0.7 explicitly at the indicator and district-map sites, 0.5 explicitly
at the village fallback, and 0.6 only as difflib's implicit default at
the state-match and click-match sites. -/
theorem cutoff_values_actual :
    indicatorsCutoff = 7/10 ∧ districtMapCutoff = 7/10 ∧
    villageFallbackCutoff = 1/2 ∧ stateMatchCutoff = 3/5 ∧ clickMatchCutoff = 3/5 ∧
    ∀ c ∈ reconCallSiteCutoffs, 1/2 ≤ c ∧ c ≤ 7/10 := by
  refine ⟨rfl, rfl, rfl, rfl, rfl, ?_⟩
  intro c hc
  fin_cases hc <;>
    norm_num [stateMatchCutoff, districtMapCutoff, indicatorsCutoff,
      villageFallbackCutoff, clickMatchCutoff]

/-- C9 counterexample: a non-string input is not normalized — the
integer 0 comes back as the string 0, while normalizing the string form
of 0 yields O (the zero-to-O repair). -/
theorem nonstring_skips_normalization :
    smart_fix_name (PyVal.i 0) ≠ smart_fix_name (PyVal.s (intStr 0)) := by decide

/-- C9 (amended): smart_fix_name never fails on a non-string, but it
returns str(x) unchanged, skipping case-folding, symbol substitution and
boilerplate removal entirely, instead of normalizing the string form. -/
theorem nonstring_returns_str_form :
    (∀ n : Int, smart_fix_name (PyVal.i n) = intStr n) ∧
    smart_fix_name (PyVal.i 0) = ofString "0" ∧
    smartFixS (ofString "0") = ofString "O" :=
  ⟨fun _ => rfl, by decide, by decide⟩

/-- C10 counterexample: get_indicators does not leave the indicators
table it is given unchanged — the MATCH_KEY column is written into it. -/
theorem get_indicators_mutates_table :
    (get_indicators (ofString "Kheri") (some [⟨ofString "Kheri", none, 0⟩])).2 ≠
      some [⟨ofString "Kheri", none, 0⟩] := by decide

/-- C10 (amended): on every call, the indicators table comes back with
MATCH_KEY recomputed from District in every row (an in-place column
write into the collaborator-owned table, so the read-only contract fails
exactly there); with no table there is nothing to write. -/
theorem get_indicators_match_key_write (d : Str) (rows : List IndRow) :
    (get_indicators d (some rows)).2 = some (rows.map setKey) ∧
    (get_indicators d none).2 = none := by
  constructor
  · simp only [get_indicators, get_indicatorsWith]
    split
    · rfl
    · split <;> rfl
  · rfl

/-- C3: when the cleaned (normalized and alias-resolved) excel name is
itself a map name, the mapping entry is that name, whatever fuzzy
matcher — and whatever cutoff — would have been used otherwise; and in
get_indicators an exact MATCH_KEY hit returns the first matching row
with the matcher never consulted. -/
theorem exact_match_skips_fuzzy (m1 m2 : Matcher) (raw : Str) (names : List Str)
    (q : ℚ) (h : cleanName raw ∈ names) :
    reconcileOneWith m1 (cleanName raw) names = some (cleanName raw) ∧
    reconcileOneWith m1 (cleanName raw) names
      = reconcileOneWith m2 (cleanName raw) names ∧
    reconcileOneWith (difflibTop q) (cleanName raw) names = some (cleanName raw) ∧
    ∀ (rows : List IndRow) (r0 : IndRow) (tl : List IndRow),
      (rows.map setKey).filter (fun r => r.matchKey = some (indKey raw)) = r0 :: tl →
      (get_indicatorsWith m1 raw (some rows)).1 = some r0 ∧
      (get_indicatorsWith m2 raw (some rows)).1 = some r0 := by
  refine ⟨?_, ?_, ?_, ?_⟩
  · simp [reconcileOneWith, h]
  · simp [reconcileOneWith, h]
  · simp [reconcileOneWith, h]
  · intro rows r0 tl hf
    constructor <;>
      · simp only [get_indicatorsWith]
        rw [hf]

/-- C3 witness: the corrupted raw name of Scenario A against the
concrete target set, at the source's own matcher on one side and a
degenerate matcher on the other. -/
theorem exact_match_skips_fuzzy_witness :
    cleanName (ofString "S|T>PUR") ∈ [ofString "SITAPUR", ofString "LUCKNOW"] ∧
    reconcileOneWith (difflibTop districtMapCutoff) (cleanName (ofString "S|T>PUR"))
        [ofString "SITAPUR", ofString "LUCKNOW"]
      = some (cleanName (ofString "S|T>PUR")) ∧
    reconcileOneWith (difflibTop districtMapCutoff) (cleanName (ofString "S|T>PUR"))
        [ofString "SITAPUR", ofString "LUCKNOW"]
      = reconcileOneWith (fun _ _ => none) (cleanName (ofString "S|T>PUR"))
        [ofString "SITAPUR", ofString "LUCKNOW"] := by
  have h : cleanName (ofString "S|T>PUR") ∈ [ofString "SITAPUR", ofString "LUCKNOW"] := by
    decide
  have main := exact_match_skips_fuzzy (difflibTop districtMapCutoff) (fun _ _ => none)
    (ofString "S|T>PUR") [ofString "SITAPUR", ofString "LUCKNOW"] districtMapCutoff h
  exact ⟨h, main.1, main.2.1⟩

lemma mem_mergeRowsFor (prep : List PreparedRisk) (p : Str) (m : MergedRow)
    (hm : m ∈ mergeRowsFor prep p) :
    m.cleanMapName = p ∧
    ((m.excel = none ∧ m.riskScore = 0 ∧ m.displayLabel = p ∧
        prep.filter (fun r => r.mergeKey = some p) = []) ∨
      ∃ r, m.excel = some r ∧ r ∈ prep ∧ r.mergeKey = some p ∧
        m.riskScore = r.riskScore ∧ m.displayLabel = r.excelDistrict) := by
  unfold mergeRowsFor at hm
  cases hf : prep.filter (fun r => r.mergeKey = some p) with
  | nil =>
    rw [hf] at hm
    simp only [List.mem_singleton] at hm
    subst hm
    exact ⟨rfl, Or.inl ⟨rfl, rfl, rfl, rfl⟩⟩
  | cons h0 tl =>
    rw [hf] at hm
    rcases List.mem_map.1 hm with ⟨r, hr, hmr⟩
    have hrf : r ∈ prep.filter (fun r => r.mergeKey = some p) := by rw [hf]; exact hr
    have hmemf := List.mem_filter.1 hrf
    subst hmr
    exact ⟨rfl, Or.inr ⟨r, rfl, hmemf.1, of_decide_eq_true hmemf.2, rfl, rfl⟩⟩

lemma mem_leftMergeRows (polys : List Str) (prep : List PreparedRisk) (m : MergedRow)
    (hm : m ∈ leftMergeRows polys prep) :
    m.cleanMapName ∈ polys ∧
    ((m.excel = none ∧ m.riskScore = 0 ∧ m.displayLabel = m.cleanMapName ∧
        prep.filter (fun r => r.mergeKey = some m.cleanMapName) = []) ∨
      ∃ r, m.excel = some r ∧ r ∈ prep ∧ r.mergeKey = some m.cleanMapName ∧
        m.riskScore = r.riskScore ∧ m.displayLabel = r.excelDistrict) := by
  unfold leftMergeRows at hm
  rcases List.mem_flatten.1 hm with ⟨sub, hsub, hmsub⟩
  rcases List.mem_map.1 hsub with ⟨p, hp, hps⟩
  subst hps
  obtain ⟨hname, hrest⟩ := mem_mergeRowsFor prep p m hmsub
  subst hname
  exact ⟨hp, hrest⟩

lemma length_mergeRowsFor (prep : List PreparedRisk) (p : Str) :
    (mergeRowsFor prep p).length
      = max 1 (prep.filter (fun r => r.mergeKey = some p)).length := by
  unfold mergeRowsFor
  cases hf : prep.filter (fun r => r.mergeKey = some p) with
  | nil => simp
  | cons h0 tl =>
    simp only [List.length_map, List.length_cons]
    omega

/-- C5 counterexample: two risk records (Kheri and Lakhimpur) collapse
onto the single canonical key LAKHIMPUR KHERI; the left merge then emits
two rows for the one polygon — both records are attached, not exactly
one of them. -/
theorem duplicate_records_duplicate_rows :
    (runMerge [ofString "Lakhimpur Kheri"]
        [⟨ofString "Kheri", 10, 0⟩, ⟨ofString "Lakhimpur", 20, 0⟩]).length = 2 ∧
    (runMerge [ofString "Lakhimpur Kheri"]
        [⟨ofString "Kheri", 10, 0⟩, ⟨ofString "Lakhimpur", 20, 0⟩]).map
        (fun m => m.riskScore) = [10, 20] := by
  constructor <;> decide

/-- C5 (amended): the merge emits one row per (polygon, matching record)
pair — a polygon matched by k records yields k rows carrying those
records' values in stable input order (never an average or a sum), and
an unmatched polygon yields exactly one sentinel row; one row per
polygon therefore holds only when no key is matched twice. -/
theorem left_merge_multiplicity (polys : List Str) (prep : List PreparedRisk) :
    (leftMergeRows polys prep).length
      = (polys.map (fun p =>
          max 1 (prep.filter (fun r => r.mergeKey = some p)).length)).sum ∧
    ∀ m ∈ leftMergeRows polys prep, ∀ r, m.excel = some r →
      r ∈ prep ∧ m.riskScore = r.riskScore ∧ r.mergeKey = some m.cleanMapName := by
  constructor
  · induction polys with
    | nil => rfl
    | cons p ps ih =>
      simp only [leftMergeRows, List.map_cons, List.flatten_cons, List.length_append,
        List.sum_cons] at ih ⊢
      rw [length_mergeRowsFor, ih]
  · intro m hm r hr
    rcases (mem_leftMergeRows polys prep m hm).2 with hnone | ⟨r2, he, hmem, hkey, hsc, _⟩
    · rw [hnone.1] at hr
      exact absurd hr (by simp)
    · rw [he] at hr
      have : r2 = r := Option.some.inj hr
      subst this
      exact ⟨hmem, hsc, hkey⟩

/-- C4 counterexample: a polygon with no reconciled record and a polygon
whose true reconciled risk is exactly 0 render identically — same label,
same 0 risk score — and the unmatched row carries no flag, only its
absent (NaN) excel-side columns. -/
theorem no_data_conflates_zero :
    (runMerge [ofString "LUCKNOW"] []).map renderColumns
      = (runMerge [ofString "LUCKNOW"] [⟨ofString "LUCKNOW", 0, 5⟩]).map renderColumns ∧
    (runMerge [ofString "LUCKNOW"] []).map (fun m => m.excel) = [none] ∧
    (runMerge [ofString "LUCKNOW"] [⟨ofString "LUCKNOW", 0, 5⟩]).map
      (fun m => m.riskScore) = [0] := by
  refine ⟨by decide, by decide, by decide⟩

/-- C4 (amended): an unmatched polygon's merged row gets risk score 0
from fillna, with no explicit no-data flag: the only trace of no-data is
that the excel-side columns are absent (NaN), while a matched row always
carries its record's true risk score — so a true 0 and the sentinel 0
coincide in the rendered value. -/
theorem sentinel_zero_and_nan_marker (polys : List Str) (rows : List RiskRow)
    (m : MergedRow) (hm : m ∈ runMerge polys rows) :
    (m.excel = none → m.riskScore = 0) ∧
    ∀ r, m.excel = some r → m.riskScore = r.riskScore ∧
      r ∈ prepareRisk (uniqFirst (polys.map cleanName)) rows ∧
      r.mergeKey = some m.cleanMapName := by
  unfold runMerge at hm
  have h := mem_leftMergeRows _ _ m hm
  constructor
  · intro hnone
    rcases h.2 with h2 | ⟨r, he, _⟩
    · exact h2.2.1
    · rw [hnone] at he
      exact absurd he (by simp)
  · intro r hr
    rcases h.2 with h2 | ⟨r2, he, hmem, hkey, hsc, _⟩
    · rw [h2.1] at hr
      exact absurd hr (by simp)
    · rw [he] at hr
      have : r2 = r := Option.some.inj hr
      subst this
      exact ⟨hsc, hmem, hkey⟩

/-- The merged row the unmatched LUCKNOW polygon produces. -/
def lucknowNoData : MergedRow := ⟨ofString "LUCKNOW", none, ofString "LUCKNOW", 0⟩

/-- C4 witness: the sentinel theorem at the concrete unmatched polygon. -/
theorem sentinel_zero_and_nan_marker_witness :
    lucknowNoData ∈ runMerge [ofString "LUCKNOW"] [] ∧ lucknowNoData.riskScore = 0 := by
  have hm : lucknowNoData ∈ runMerge [ofString "LUCKNOW"] [] := by decide
  exact ⟨hm,
    (sentinel_zero_and_nan_marker [ofString "LUCKNOW"] [] lucknowNoData hm).1 (by decide)⟩

lemma le_foldl_max (b : ℚ) (l : List ℚ) : b ≤ l.foldl max b := by
  induction l generalizing b with
  | nil => exact le_refl b
  | cons c rest ih => exact le_trans (le_max_left b c) (ih (max b c))

lemma mem_le_foldl_max (a : ℚ) : ∀ (l : List ℚ) (b : ℚ), a ∈ l → a ≤ l.foldl max b := by
  intro l
  induction l with
  | nil => intro b h; cases h
  | cons c rest ih =>
    intro b h
    rcases List.mem_cons.1 h with h | h
    · subst h
      exact le_trans (le_max_right b a) (le_foldl_max _ _)
    · exact ih _ h

lemma foldl_min_le (b : ℚ) (l : List ℚ) : l.foldl min b ≤ b := by
  induction l generalizing b with
  | nil => exact le_refl b
  | cons c rest ih => exact le_trans (ih (min b c)) (min_le_left b c)

lemma foldl_min_le_mem (a : ℚ) : ∀ (l : List ℚ) (b : ℚ), a ∈ l → l.foldl min b ≤ a := by
  intro l
  induction l with
  | nil => intro b h; cases h
  | cons c rest ih =>
    intro b h
    rcases List.mem_cons.1 h with h | h
    · subst h
      exact le_trans (foldl_min_le (min b a) rest) (min_le_right b a)
    · exact ih _ h

lemma mem_le_listMax (a : ℚ) (l : List ℚ) (h : a ∈ l) : a ≤ listMax l :=
  mem_le_foldl_max a l _ h

lemma listMin_le_mem (a : ℚ) (l : List ℚ) (h : a ∈ l) : listMin l ≤ a :=
  foldl_min_le_mem a l _ h

lemma mem_bounds (g : Geom) (q : ℚ × ℚ) (h : q ∈ g.pts) :
    (bounds g).minx ≤ q.1 ∧ q.1 ≤ (bounds g).maxx ∧
    (bounds g).miny ≤ q.2 ∧ q.2 ≤ (bounds g).maxy := by
  have hx : q.1 ∈ g.pts.map Prod.fst := List.mem_map_of_mem Prod.fst h
  have hy : q.2 ∈ g.pts.map Prod.snd := List.mem_map_of_mem Prod.snd h
  exact ⟨listMin_le_mem _ _ hx, mem_le_listMax _ _ hx,
    listMin_le_mem _ _ hy, mem_le_listMax _ _ hy⟩

lemma edge_endpoints (p : Geom) (e : (ℚ × ℚ) × (ℚ × ℚ)) (he : e ∈ edgesOf p) :
    e.1 ∈ p.pts ∧ e.2 ∈ p.pts := by
  unfold edgesOf at he
  cases hp : p.pts with
  | nil => rw [hp] at he; cases he
  | cons c rest =>
    rw [hp] at he
    obtain ⟨a, b⟩ := e
    have hz := List.of_mem_zip he
    refine ⟨hz.1, ?_⟩
    rcases List.mem_append.1 hz.2 with hb | hb
    · exact List.mem_cons_of_mem c hb
    · rw [List.mem_singleton.1 hb]
      exact List.mem_cons_self c rest

lemma crossesRight_imp_straddles (q : ℚ × ℚ) (e : (ℚ × ℚ) × (ℚ × ℚ))
    (h : crossesRight q e = true) : straddles q.2 e = true := by
  unfold crossesRight at h
  unfold straddles
  split at h
  · rename_i hc
    rw [decide_eq_false (not_lt.2 hc.1), decide_eq_true hc.2]
    rfl
  · split at h
    · rename_i hc
      rw [decide_eq_true hc.2, decide_eq_false (not_lt.2 hc.1)]
      rfl
    · exact absurd h (by simp)

lemma not_straddles_of_y_out (qy : ℚ) (p : Geom) (e : (ℚ × ℚ) × (ℚ × ℚ))
    (he : e ∈ edgesOf p)
    (hy : listMax (p.pts.map Prod.snd) ≤ qy ∨ qy < listMin (p.pts.map Prod.snd)) :
    straddles qy e = false := by
  obtain ⟨h1, h2⟩ := edge_endpoints p e he
  have hy1 : e.1.2 ∈ p.pts.map Prod.snd := List.mem_map_of_mem Prod.snd h1
  have hy2 : e.2.2 ∈ p.pts.map Prod.snd := List.mem_map_of_mem Prod.snd h2
  unfold straddles
  rcases hy with hy | hy
  · rw [decide_eq_false (not_lt.2 (le_trans (mem_le_listMax _ _ hy1) hy)),
      decide_eq_false (not_lt.2 (le_trans (mem_le_listMax _ _ hy2) hy))]
    rfl
  · rw [decide_eq_true (lt_of_lt_of_le hy (listMin_le_mem _ _ hy1)),
      decide_eq_true (lt_of_lt_of_le hy (listMin_le_mem _ _ hy2))]
    rfl

lemma crossesRight_false_of_x_right (q : ℚ × ℚ) (e : (ℚ × ℚ) × (ℚ × ℚ)) (M : ℚ)
    (h1 : e.1.1 ≤ M) (h2 : e.2.1 ≤ M) (hq : M < q.1) : crossesRight q e = false := by
  obtain ⟨⟨x1, y1⟩, ⟨x2, y2⟩⟩ := e
  simp only at h1 h2
  unfold crossesRight
  simp only
  split
  · rename_i hc
    rw [decide_eq_false]
    rw [not_lt]
    nlinarith [mul_pos (show (0:ℚ) < q.1 - x1 by linarith)
        (show (0:ℚ) < y2 - q.2 by linarith),
      mul_nonneg (show (0:ℚ) ≤ q.2 - y1 by linarith)
        (show (0:ℚ) ≤ q.1 - x2 by linarith)]
  · split
    · rename_i hc
      rw [decide_eq_false]
      rw [not_lt]
      nlinarith [mul_nonneg (show (0:ℚ) ≤ q.1 - x1 by linarith)
          (show (0:ℚ) ≤ q.2 - y2 by linarith),
        mul_pos (show (0:ℚ) < y1 - q.2 by linarith)
          (show (0:ℚ) < q.1 - x2 by linarith)]
    · rfl

lemma crossesRight_eq_straddles_of_x_left (q : ℚ × ℚ) (e : (ℚ × ℚ) × (ℚ × ℚ)) (M : ℚ)
    (h1 : M ≤ e.1.1) (h2 : M ≤ e.2.1) (hq : q.1 < M) :
    crossesRight q e = straddles q.2 e := by
  obtain ⟨⟨x1, y1⟩, ⟨x2, y2⟩⟩ := e
  simp only at h1 h2
  unfold crossesRight straddles
  simp only
  split
  · rename_i hc
    rw [decide_eq_false (not_lt.2 hc.1), decide_eq_true hc.2]
    rw [decide_eq_true]
    · rfl
    · nlinarith [mul_pos (show (0:ℚ) < x1 - q.1 by linarith)
          (show (0:ℚ) < y2 - q.2 by linarith),
        mul_nonneg (show (0:ℚ) ≤ q.2 - y1 by linarith)
          (show (0:ℚ) ≤ x2 - q.1 by linarith)]
  · split
    · rename_i hc
      rw [decide_eq_true hc.2, decide_eq_false (not_lt.2 hc.1)]
      rw [decide_eq_true]
      · rfl
      · nlinarith [mul_nonneg (show (0:ℚ) ≤ x1 - q.1 by linarith)
            (show (0:ℚ) ≤ q.2 - y2 by linarith),
          mul_pos (show (0:ℚ) < y1 - q.2 by linarith)
            (show (0:ℚ) < x2 - q.1 by linarith)]
    · rename_i hc1 hc2
      have hb1 : decide (q.2 < y1) = decide (q.2 < y2) := by
        rcases lt_or_le q.2 y1 with hlt | hle
        · rw [decide_eq_true hlt, decide_eq_true]
          by_contra hy2
          rw [not_lt] at hy2
          exact hc2 ⟨hy2, hlt⟩
        · rw [decide_eq_false (not_lt.2 hle), decide_eq_false]
          rw [not_lt]
          by_contra hy2
          rw [not_le] at hy2
          exact hc1 ⟨hle, hy2⟩
      rw [hb1, bne_self_eq_false]

/-- Consecutive pairs of a list. -/
def adjPairs {α : Type} : List α → List (α × α)
  | [] => []
  | [_] => []
  | a :: b :: t => (a, b) :: adjPairs (b :: t)

lemma zip_rot_eq_adjPairs {α : Type} (last : α) :
    ∀ (l : List α) (x : α), (x :: l).zip (l ++ [last]) = adjPairs (x :: l ++ [last]) := by
  intro l
  induction l with
  | nil => intro x; rfl
  | cons b t ih =>
    intro x
    simp only [List.cons_append, List.zip_cons_cons, adjPairs]
    rw [ih b]
    exact rfl

lemma countP_adjPairs_parity {α : Type} (f : α → Bool) :
    ∀ (l : List α) (a b : α),
      (adjPairs (a :: l ++ [b])).countP (fun e => f e.1 != f e.2) % 2
        = (if f a = f b then 0 else 1) := by
  intro l
  induction l with
  | nil =>
    intro a b
    by_cases h : f a = f b <;>
      simp [adjPairs, List.countP_cons, List.countP_nil, h]
  | cons c t ih =>
    intro a b
    have step : adjPairs (a :: (c :: t) ++ [b]) = (a, c) :: adjPairs (c :: t ++ [b]) := by
      simp [adjPairs, List.cons_append]
    rw [step, List.countP_cons]
    have ihc := ih c b
    cases hfa : f a <;> cases hfc : f c <;> cases hfb : f b <;>
      rw [hfc, hfb] at ihc <;> simp at ihc ⊢ <;> omega

lemma countP_straddles_even (qy : ℚ) (p : Geom) :
    (edgesOf p).countP (straddles qy) % 2 = 0 := by
  unfold edgesOf
  cases hp : p.pts with
  | nil => rfl
  | cons c rest =>
    simp only [List.tail_cons]
    rw [zip_rot_eq_adjPairs c rest c]
    have hpar := countP_adjPairs_parity (fun v : ℚ × ℚ => decide (qy < v.2)) rest c c
    rw [if_pos rfl] at hpar
    have hcong : (adjPairs (c :: rest ++ [c])).countP (straddles qy)
        = (adjPairs (c :: rest ++ [c])).countP
          (fun e => (fun v : ℚ × ℚ => decide (qy < v.2)) e.1
            != (fun v : ℚ × ℚ => decide (qy < v.2)) e.2) := by
      apply List.countP_congr
      intro e _
      rfl
    rw [hcong]
    exact hpar

lemma crossesRight_false_of_not_straddles (q : ℚ × ℚ) (e : (ℚ × ℚ) × (ℚ × ℚ))
    (hs : straddles q.2 e = false) : crossesRight q e = false := by
  cases hcr : crossesRight q e
  · rfl
  · rw [crossesRight_imp_straddles q e hcr] at hs
    exact absurd hs (by simp)

lemma pointInPoly_imp_bounds (q : ℚ × ℚ) (p : Geom) (h : pointInPoly q p = true) :
    (bounds p).minx ≤ q.1 ∧ q.1 ≤ (bounds p).maxx ∧
    (bounds p).miny ≤ q.2 ∧ q.2 ≤ (bounds p).maxy := by
  have hodd : ((edgesOf p).filter (crossesRight q)).length % 2 = 1 := of_decide_eq_true h
  have hminx : (bounds p).minx = listMin (p.pts.map Prod.fst) := rfl
  have hmaxx : (bounds p).maxx = listMax (p.pts.map Prod.fst) := rfl
  have hminy : (bounds p).miny = listMin (p.pts.map Prod.snd) := rfl
  have hmaxy : (bounds p).maxy = listMax (p.pts.map Prod.snd) := rfl
  refine ⟨?_, ?_, ?_, ?_⟩
  · by_contra hx
    rw [not_le, hminx] at hx
    have hfeq : (edgesOf p).filter (crossesRight q)
        = (edgesOf p).filter (straddles q.2) := by
      apply List.filter_congr
      intro e he
      exact crossesRight_eq_straddles_of_x_left q e (listMin (p.pts.map Prod.fst))
        (listMin_le_mem _ _ (List.mem_map_of_mem Prod.fst (edge_endpoints p e he).1))
        (listMin_le_mem _ _ (List.mem_map_of_mem Prod.fst (edge_endpoints p e he).2)) hx
    rw [hfeq, ← List.countP_eq_length_filter, countP_straddles_even q.2 p] at hodd
    exact absurd hodd (by omega)
  · by_contra hx
    rw [not_le, hmaxx] at hx
    have hfeq : (edgesOf p).filter (crossesRight q) = [] := by
      rw [List.filter_eq_nil_iff]
      intro e he
      rw [crossesRight_false_of_x_right q e (listMax (p.pts.map Prod.fst))
        (mem_le_listMax _ _ (List.mem_map_of_mem Prod.fst (edge_endpoints p e he).1))
        (mem_le_listMax _ _ (List.mem_map_of_mem Prod.fst (edge_endpoints p e he).2)) hx]
      simp
    rw [hfeq] at hodd
    simp at hodd
  · by_contra hy
    rw [not_le, hminy] at hy
    have hfeq : (edgesOf p).filter (crossesRight q) = [] := by
      rw [List.filter_eq_nil_iff]
      intro e he
      rw [crossesRight_false_of_not_straddles q e
        (not_straddles_of_y_out q.2 p e he (Or.inr hy))]
      simp
    rw [hfeq] at hodd
    simp at hodd
  · by_contra hy
    rw [not_le, hmaxy] at hy
    have hfeq : (edgesOf p).filter (crossesRight q) = [] := by
      rw [List.filter_eq_nil_iff]
      intro e he
      rw [crossesRight_false_of_not_straddles q e
        (not_straddles_of_y_out q.2 p e he (Or.inl (le_of_lt hy)))]
      simp
    rw [hfeq] at hodd
    simp at hodd

lemma within_imp_rectIntersects (g p : Geom) (h : within g p = true) :
    rectIntersects (bounds g) (bounds p) = true := by
  unfold within at h
  rw [Bool.and_eq_true] at h
  obtain ⟨hne, hall⟩ := h
  cases hg : g.pts with
  | nil =>
    rw [hg] at hne
    exact absurd hne (by simp)
  | cons q rest =>
    have hq : q ∈ g.pts := by
      rw [hg]
      exact List.mem_cons_self q rest
    have hin : pointInPoly q p = true := List.all_eq_true.1 hall q hq
    have hb := pointInPoly_imp_bounds q p hin
    have hgb := mem_bounds g q hq
    unfold rectIntersects
    simp only [Bool.and_eq_true, decide_eq_true_eq]
    exact ⟨⟨⟨le_trans hgb.1 hb.2.1, le_trans hb.1 hgb.2.1⟩,
      le_trans hgb.2.2.1 hb.2.2.2⟩, le_trans hb.2.2.1 hgb.2.2.2⟩

/-- C6: the bounding-box pre-filter keeps every candidate whose geometry
lies within the boundary (a superset of the true positives), the final
result equals the exact within test applied to all candidates, and no
candidate index appears twice in the output. -/
theorem containment_prefilter_superset (p : Geom) (cands : List Geom) :
    (∀ ic ∈ cands.enum, within ic.2 p = true → ic ∈ possibleMatches p cands) ∧
    amenitiesInside p cands = cands.enum.filter (fun ic => within ic.2 p) ∧
    ((amenitiesInside p cands).map Prod.fst).Nodup := by
  refine ⟨?_, ?_, ?_⟩
  · intro ic hic hw
    exact List.mem_filter.2 ⟨hic, within_imp_rectIntersects _ _ hw⟩
  · unfold amenitiesInside possibleMatches
    rw [List.filter_filter]
    apply List.filter_congr
    intro ic _
    cases hw : within ic.2 p
    · simp
    · simp [within_imp_rectIntersects _ _ hw]
  · have h1 : (amenitiesInside p cands).Sublist cands.enum :=
      (List.filter_sublist _).trans (List.filter_sublist _)
    have h2 := h1.map Prod.fst
    rw [List.enum_map_fst] at h2
    exact h2.nodup (List.nodup_range _)
